import Mathlib

/-!
Verification development for `aicssegmentation/core/utils.py`.

The Python module operates on boolean/integer voxel grids with the libraries
numpy, scipy.ndimage, skimage.  We embed the functions shallowly:

* a 2D image of shape `H × W` is a function `Fin H × Fin W → Int` (or `→ Bool`
  once thresholded), a 3D volume similarly with a leading `Fin D` axis;
* `skimage.measure.label(mask, connectivity)` is embedded through its
  semantics: the partition of the mask into connectivity components, with
  labels `1, 2, ...` assigned in row-major scan order of each component's
  first pixel (label `0` for background), which is the documented behaviour
  of the library routine;
* connected components are computed executably by iterating a one-step
  neighbourhood expansion `Fintype.card` many times, which provably reaches
  the fixpoint;
* `np.bincount` of the label image is the function counting, for each label
  value, the pixels carrying it;
* rational numbers stand in for the float arithmetic of the source
  (`1e-5 = 1/100000` exactly, etc.).
-/

set_option maxHeartbeats 1000000
set_option linter.unusedSectionVars false

section Components

variable {α : Type} [Fintype α] [DecidableEq α]

/-- One adjacency step inside a mask: `q` and `r` are adjacent and both are
mask pixels. -/
def stepB (adj : α → α → Bool) (m : α → Bool) (q r : α) : Bool :=
  adj q r && m q && m r

/-- Grow a pixel set by all mask pixels adjacent to it. -/
def grow (adj : α → α → Bool) (m : α → Bool) (S : Finset α) : Finset α :=
  S ∪ Finset.univ.filter (fun r => ∃ q ∈ S, stepB adj m q r = true)

/-- Iterated neighbourhood expansion starting from the singleton `{p}`
(empty if `p` is not a mask pixel). -/
def compIter (adj : α → α → Bool) (m : α → Bool) : ℕ → α → Finset α
  | 0, p => if m p then {p} else ∅
  | n + 1, p => grow adj m (compIter adj m n p)

/-- The connectivity component of `p` inside mask `m`: the expansion is run
`Fintype.card α` times, enough to reach its fixpoint. -/
def compOf (adj : α → α → Bool) (m : α → Bool) (p : α) : Finset α :=
  compIter adj m (Fintype.card α) p

/-- Number of pixels of the component of `p` (the component size counted by
`np.bincount` of the label image). -/
def compSize (adj : α → α → Bool) (m : α → Bool) (p : α) : ℕ :=
  (compOf adj m p).card

/-- Row-major index of the first pixel of the component of `p`, under the
enumeration `idx` of the pixels; `skimage.measure.label` assigns labels in
increasing order of this quantity. -/
def compMin (idx : α → ℕ) (adj : α → α → Bool) (m : α → Bool) (p : α) : ℕ :=
  (((compOf adj m p).image idx).min).getD 0

/-- Label of pixel `p` in the labelling of mask `m`: `0` off the mask,
otherwise one plus the number of components whose first pixel precedes the
first pixel of the component of `p` in scan order.  This is the semantics of
`skimage.measure.label`. -/
def labelOf (idx : α → ℕ) (adj : α → α → Bool) (m : α → Bool) (p : α) : ℕ :=
  if m p then
    1 + (Finset.univ.filter
      (fun q => m q = true ∧ compMin idx adj m q = idx q ∧ idx q < compMin idx adj m p)).card
  else 0

/-- Embedding of `np.bincount(label_image.ravel()) k`: how many pixels carry
label `k`. -/
def bincountLab (idx : α → ℕ) (adj : α → α → Bool) (m : α → Bool) (k : ℕ) : ℕ :=
  (Finset.univ.filter (fun q => labelOf idx adj m q = k)).card

/-- Embedding of the fill-mask construction of `hole_filling`: start from the
label image of the (already inverted) mask `m`, zero the labels whose
`bincount` is `> hole_max` (`too_big`) or `< hole_min` (`too_small`), and
record where the result is nonzero. -/
def fill_mask (idx : α → ℕ) (adj : α → α → Bool) (m : α → Bool)
    (hole_min hole_max : ℕ) (p : α) : Bool :=
  let lab := labelOf idx adj m p
  let too_big := decide (hole_max < bincountLab idx adj m lab)
  let too_small := decide (bincountLab idx adj m lab < hole_min)
  decide (lab ≠ 0) && !too_big && !too_small

/-- Core of `hole_filling` on a boolean image: label the inverted mask, keep
the components inside the size window, and OR the fill back onto the input
(`np.logical_or(bw, fill_out)`). -/
def hfB (idx : α → ℕ) (adj : α → α → Bool) (bwB : α → Bool)
    (hole_min hole_max : ℕ) : α → Bool :=
  fun p => bwB p || fill_mask idx adj (fun q => !bwB q) hole_min hole_max p

end Components

/-- Pixel type of a 2D image of shape `H × W` (axes `(row, col)`). -/
abbrev Pix2 (H W : ℕ) := Fin H × Fin W

/-- Voxel type of a 3D volume of shape `D × H × W` (axes `(z, y, x)`). -/
abbrev Pix3 (D H W : ℕ) := Fin D × (Fin H × Fin W)

/-- Two naturals at distance exactly one. -/
def near1 (a b : ℕ) : Bool := decide (a + 1 = b) || decide (b + 1 = a)

/-- Four-connectivity of 2D pixels (`connectivity=1` of skimage in 2D). -/
def adj4 {H W : ℕ} (p q : Pix2 H W) : Bool :=
  (decide (p.1 = q.1) && near1 p.2.val q.2.val) ||
  (decide (p.2 = q.2) && near1 p.1.val q.1.val)

/-- Eight-connectivity of 2D pixels (the default connectivity of
`skimage.measure.label` on a 2D image). -/
def adj8 {H W : ℕ} (p q : Pix2 H W) : Bool :=
  decide (p ≠ q) && decide (Nat.dist p.1.val q.1.val ≤ 1) &&
    decide (Nat.dist p.2.val q.2.val ≤ 1)

/-- Six-connectivity of 3D voxels (`connectivity=1` of skimage in 3D). -/
def adj6 {D H W : ℕ} (u v : Pix3 D H W) : Bool :=
  (decide (u.1 = v.1) && decide (u.2.1 = v.2.1) && near1 u.2.2.val v.2.2.val) ||
  (decide (u.1 = v.1) && decide (u.2.2 = v.2.2) && near1 u.2.1.val v.2.1.val) ||
  (decide (u.2 = v.2) && near1 u.1.val v.1.val)

/-- Row-major (C-order) enumeration of 2D pixels. -/
def idx2 {H W : ℕ} (p : Pix2 H W) : ℕ := p.1.val * W + p.2.val

/-- Row-major (C-order) enumeration of 3D voxels. -/
def idx3 {D H W : ℕ} (v : Pix3 D H W) : ℕ :=
  (v.1.val * H + v.2.1.val) * W + v.2.2.val

/-- The 2D branch of `hole_filling` (lines 14-23 of utils.py): threshold the
input with `> 0`, label the inverted mask with 4-connectivity, drop
components outside the size window, OR the fill onto the input. -/
def hole_filling_2d {H W : ℕ} (bw : Pix2 H W → Int) (hole_min hole_max : ℕ) :
    Pix2 H W → Bool :=
  hfB idx2 adj4 (fun p => decide (bw p > 0)) hole_min hole_max

/-- The 3D slice-wise branch of `hole_filling` (`fill_2d=True`, lines 25-37):
the 2D procedure is applied independently to every z-slice. -/
def hole_filling_3d_2dfill {D H W : ℕ} (bw : Pix3 D H W → Int)
    (hole_min hole_max : ℕ) : Pix3 D H W → Bool :=
  fun v => hole_filling_2d (fun p => bw (v.1, p)) hole_min hole_max v.2

/-- The full-3D branch of `hole_filling` (`fill_2d=False`, lines 38-47):
label the inverted volume with 6-connectivity. -/
def hole_filling_3d_full {D H W : ℕ} (bw : Pix3 D H W → Int)
    (hole_min hole_max : ℕ) : Pix3 D H W → Bool :=
  hfB idx3 adj6 (fun v => decide (bw v > 0)) hole_min hole_max

/-- Top-level `hole_filling`: dispatch on the dimensionality of the input
array (given by its shape list).  A shape of length other than 2 or 3 takes
the `else` branch of the source, which prints `error` and returns `None`;
this is the `none` result.  Out-of-range indices of the result read as
`false`. -/
def hole_filling (shape : List ℕ) (data : List ℕ → Int)
    (hole_min hole_max : ℕ) (fill_2d : Bool) : Option (List ℕ → Bool) :=
  match shape with
  | [h, w] => some (fun ix => match ix with
      | [y, x] =>
        if hy : y < h then
          if hx : x < w then
            hole_filling_2d (fun p : Pix2 h w => data [p.1.val, p.2.val])
              hole_min hole_max (⟨y, hy⟩, ⟨x, hx⟩)
          else false
        else false
      | _ => false)
  | [d, h, w] => some (fun ix => match ix with
      | [z, y, x] =>
        if hz : z < d then
          if hy : y < h then
            if hx : x < w then
              if fill_2d then
                hole_filling_3d_2dfill
                  (fun v : Pix3 d h w => data [v.1.val, v.2.1.val, v.2.2.val])
                  hole_min hole_max (⟨z, hz⟩, ⟨y, hy⟩, ⟨x, hx⟩)
              else
                hole_filling_3d_full
                  (fun v : Pix3 d h w => data [v.1.val, v.2.1.val, v.2.2.val])
                  hole_min hole_max (⟨z, hz⟩, ⟨y, hy⟩, ⟨x, hx⟩)
            else false
          else false
        else false
      | _ => false)
  | _ => none

/-- Reinjection of a boolean result into the integer-valued input format
(feeding the boolean output of `hole_filling` back in; thresholding it with
`> 0` is the identity). -/
def toIntGrid {β : Type} (b : β → Bool) : β → Int :=
  fun v => if b v then 1 else 0

/-- Squared Euclidean distance of two 2D pixels (`distance_transform_edt`
squared, kept exact in the naturals). -/
def sqDist2 {H W : ℕ} (p q : Pix2 H W) : ℕ :=
  Nat.dist p.1.val q.1.val ^ 2 + Nat.dist p.2.val q.2.val ^ 2

/-- Embedding of `np.any` on a 2D boolean slice. -/
def sliceAny {H W : ℕ} (s : Pix2 H W → Bool) : Bool :=
  decide (∃ p, s p = true)

/-- The safe zone of `topology_preserving_thinning` (lines 56-61): on every
z-slice with some foreground, the pixels whose Euclidean distance to the
medial axis `ctl` of the slice exceeds `min_thickness + 1e-5`; other slices
stay all-false (the `np.zeros_like` initialisation).  The comparison
`dist > min_thickness + 1e-5` is carried out exactly on squared distances:
`d^2 * 10^10 > mt^2 * 10^10 + 2*mt*10^5 + 1`.  The third-party
`skimage.morphology.medial_axis` is passed in as the function `ma`. -/
def safe_zone {D H W : ℕ} (ma : (Pix2 H W → Bool) → Pix2 H W → Bool)
    (bwB : Pix3 D H W → Bool) (min_thickness : ℕ) (v : Pix3 D H W) : Bool :=
  let slice : Pix2 H W → Bool := fun p => bwB (v.1, p)
  if sliceAny slice then
    let ctl := ma slice
    match ((Finset.univ.filter (fun s => ctl s = true)).image
        (fun s => sqDist2 v.2 s)).min with
    | none => true
    | some d => decide (d * 10000000000 >
        min_thickness ^ 2 * 10000000000 + 2 * min_thickness * 100000 + 1)
  else false

/-- Reflect-mode index folding of `scipy.ndimage` (pattern
`(d c b a | a b c d | d c b a)`), used by `skimage.morphology.erosion` at
the image border. -/
def reflectIdx (n : ℕ) (i : ℤ) : ℕ :=
  let p : ℤ := 2 * n
  let j := i % p
  if j < n then j.toNat else (p - 1 - j).toNat

/-- Reflected index packaged as a `Fin`; the `Fin` argument witnesses that
the axis is nonempty. -/
def reflectFin {n : ℕ} (wit : Fin n) (i : ℤ) : Fin n :=
  ⟨reflectIdx n i % n, Nat.mod_lt _ wit.pos⟩

/-- Erosion of a 3D boolean volume by the spherical structuring element
`skimage.morphology.ball r` (offsets of the cube `[-r, r]^3` with
`dz^2 + dy^2 + dx^2 ≤ r^2`), with reflect border handling. -/
def erosionBall {D H W : ℕ} (bwB : Pix3 D H W → Bool) (r : ℕ)
    (v : Pix3 D H W) : Bool :=
  decide (∀ dz ∈ Finset.Icc (-(r : ℤ)) (r : ℤ),
    ∀ dy ∈ Finset.Icc (-(r : ℤ)) (r : ℤ),
    ∀ dx ∈ Finset.Icc (-(r : ℤ)) (r : ℤ),
    dz ^ 2 + dy ^ 2 + dx ^ 2 ≤ (r : ℤ) ^ 2 →
    bwB (reflectFin v.1 ((v.1.val : ℤ) + dz),
         reflectFin v.2.1 ((v.2.1.val : ℤ) + dy),
         reflectFin v.2.2 ((v.2.2.val : ℤ) + dx)) = true)

/-- Removal candidates of `topology_preserving_thinning` (line 63): voxels of
the input absent from its erosion by `ball thin`. -/
def rm_candidate {D H W : ℕ} (bwB : Pix3 D H W → Bool) (thin : ℕ)
    (v : Pix3 D H W) : Bool :=
  xor (bwB v) (erosionBall bwB thin v)

/-- Embedding of the fancy-indexed assignment `a[msk] = 0` on a boolean
array. -/
def maskAssignZero {β : Type} (a : β → Bool) (msk : β → Bool) : β → Bool :=
  fun v => if msk v then false else a v

/-- Embedding of `topology_preserving_thinning` (lines 54-67): threshold the
input, compute the per-slice safe zone and the erosion-based removal
candidates, and zero the voxels lying in both.  The third-party
`skimage.morphology.medial_axis` is abstracted as the argument `ma`. -/
def topology_preserving_thinning {D H W : ℕ}
    (ma : (Pix2 H W → Bool) → Pix2 H W → Bool) (bw : Pix3 D H W → Int)
    (min_thickness thin : ℕ) : Pix3 D H W → Bool :=
  let bwB := fun v => decide (bw v > 0)
  maskAssignZero bwB
    (fun v => safe_zone ma bwB min_thickness v && rm_candidate bwB thin v)

/-- The denominator constructed by `divide_nonzero` (lines 74-75): a copy of
`array2` whose zero entries are replaced by `1e-10`. -/
def dnDenominator {β : Type} (array2 : β → ℚ) : β → ℚ :=
  fun v => if array2 v = 0 then 1 / 10000000000 else array2 v

/-- Embedding of `divide_nonzero` (lines 70-76).  The state of `array2`
after the call is returned alongside the quotient: the source mutates only
the fresh `np.copy`, so the second component is the unchanged input. -/
def divide_nonzero {β : Type} (array1 array2 : β → ℚ) : (β → ℚ) × (β → ℚ) :=
  (fun v => array1 v / dnDenominator array2 v, array2)

/-- Histogram entry with the `1e-5` bias of line 86 (`hist = hist + 1e-5`),
read through `getD` with default `0` for out-of-range indices. -/
def otsuEntry (hist : List ℚ) (j : ℕ) : ℚ :=
  hist.getD j 0 + 1 / 100000

/-- Bin centre of line 89: `np.arange(0, 1 + bin_size/2, bin_size)` at index
`j`, which in exact arithmetic is `j * (1 / (n - 1))`. -/
def otsuBinCenter (n : ℕ) (j : ℕ) : ℚ :=
  j * (1 / ((n : ℚ) - 1))

/-- Cumulative class-1 weight `weight1 = np.cumsum(hist)` at index `i`. -/
def otsuW1 (hist : List ℚ) (i : ℕ) : ℚ :=
  ∑ j ∈ Finset.range (i + 1), otsuEntry hist j

/-- Reversed cumulative class-2 weight
`weight2 = np.cumsum(hist[::-1])[::-1]` at index `i`: the suffix sum from
`i`. -/
def otsuW2 (hist : List ℚ) (i : ℕ) : ℚ :=
  ∑ j ∈ Finset.Ico i hist.length, otsuEntry hist j

/-- Class-1 mean `mean1` at index `i`. -/
def otsuM1 (hist : List ℚ) (i : ℕ) : ℚ :=
  (∑ j ∈ Finset.range (i + 1), otsuEntry hist j * otsuBinCenter hist.length j)
    / otsuW1 hist i

/-- Class-2 mean `mean2` at index `i` (suffix mean from `i`). -/
def otsuM2 (hist : List ℚ) (i : ℕ) : ℚ :=
  (∑ j ∈ Finset.Ico i hist.length, otsuEntry hist j * otsuBinCenter hist.length j)
    / otsuW2 hist i

/-- Between-class variance of line 103:
`weight1[:-1] * weight2[1:] * (mean1[:-1] - mean2[1:])^2` at split `i`. -/
def otsuVar (hist : List ℚ) (i : ℕ) : ℚ :=
  otsuW1 hist i * otsuW2 hist (i + 1) * (otsuM1 hist i - otsuM2 hist (i + 1)) ^ 2

/-- Maximum value of a nonempty list of rationals (`0` for `[]`). -/
def maxValQ : List ℚ → ℚ
  | [] => 0
  | [x] => x
  | x :: y :: ys => max x (maxValQ (y :: ys))

/-- First index attaining the maximum — the semantics of `np.argmax`. -/
def argmaxQ : List ℚ → ℕ
  | [] => 0
  | [_] => 0
  | x :: y :: ys => if x < maxValQ (y :: ys) then argmaxQ (y :: ys) + 1 else 0

/-- Embedding of `histogram_otsu` (lines 83-107).  A histogram of fewer than
two bins makes the source raise (`1/(len(hist)-1)` divides by the integer
zero, or `np.argmax` sees an empty array); this is the `none` result. -/
def histogram_otsu (hist : List ℚ) : Option ℚ :=
  if hist.length < 2 then none
  else
    some (otsuBinCenter hist.length
      (argmaxQ ((List.range (hist.length - 1)).map (otsuVar hist))))

/-- Comparison by absolute value, the sort key of `sortbyabs`. -/
def absLeQ (x y : ℚ) : Prop := |x| ≤ |y|

instance : DecidableRel absLeQ := fun x y =>
  inferInstanceAs (Decidable (|x| ≤ |y|))

instance : IsTotal ℚ absLeQ := ⟨fun x y => le_total |x| |y|⟩

instance : IsTrans ℚ absLeQ := ⟨fun _ _ _ h h2 => le_trans h h2⟩

/-- Embedding of `sortbyabs` (lines 125-131) along the last axis: sort a
vector by ascending absolute value. -/
def sortbyabs (l : List ℚ) : List ℚ := List.insertionSort absLeQ l

/-- Embedding of `absolute_eigenvaluesh` (lines 110-122) over a batch of
matrices: per matrix, take the eigenvalues (through the library routine
`np.linalg.eigvalsh`, abstracted as `eig`), sort them by absolute value, and
return one array per eigenvalue rank with the eigenvalue axis squeezed away
(`np.split` + `np.squeeze`): rank `k` holds, for each matrix, its `k`-th
abs-sorted eigenvalue. -/
def absolute_eigenvaluesh (nranks : ℕ) {M : Type} (eig : M → List ℚ)
    (batch : List M) : List (List ℚ) :=
  (List.range nranks).map (fun k => batch.map (fun mm => (sortbyabs (eig mm)).getD k 0))

/-- Eigenvalues of the 2×2 diagonal symmetric matrix `[[a,0],[0,c]]` in the
ascending order documented for `np.linalg.eigvalsh`. -/
def eigvalsh2_diag (a c : ℚ) : List ℚ :=
  if a ≤ c then [a, c] else [c, a]

/-- Embedding of `skimage.morphology.remove_small_objects` with its default
4-connectivity: keep the foreground pixels whose component has at least
`min_size` pixels (the library drops components strictly smaller than
`min_size`). -/
def remove_small_objects {H W : ℕ} (bwB : Pix2 H W → Bool) (min_size : ℕ) :
    Pix2 H W → Bool :=
  fun p => bwB p && decide (min_size ≤ compSize adj4 bwB p)

/-- All pixels of an `H × W` image in row-major scan order. -/
def pixList (H W : ℕ) : List (Pix2 H W) :=
  (List.finRange H).flatMap (fun y => (List.finRange W).map (fun x => (y, x)))

/-- Representatives (first pixel in scan order) of the 8-connectivity
components of a 2D mask, listed in scan order; `skimage.measure.label`
numbers the components in this order and `regionprops` returns them sorted
by label. -/
def repsSorted {H W : ℕ} (m : Pix2 H W → Bool) : List (Pix2 H W) :=
  List.insertionSort (fun a b => idx2 a ≤ idx2 b)
    ((pixList H W).filter
      (fun q => m q && decide (compMin idx2 adj8 m q = idx2 q)))

/-- The 8-connectivity components of a 2D mask in label order. -/
def compsList {H W : ℕ} (m : Pix2 H W → Bool) : List (Finset (Pix2 H W)) :=
  (repsSorted m).map (compOf adj8 m)

/-- Row coordinate of the centroid of a region (`regionprops(...).centroid`
first coordinate: the mean of the row indices). -/
def centroidY {H W : ℕ} (S : Finset (Pix2 H W)) : ℚ :=
  (∑ p ∈ S, (p.1.val : ℚ)) / S.card

/-- Column coordinate of the centroid of a region. -/
def centroidX {H W : ℕ} (S : Finset (Pix2 H W)) : ℚ :=
  (∑ p ∈ S, (p.2.val : ℚ)) / S.card

/-- Rounding half to even, the semantics of `np.round`. -/
def roundHalfEven (q : ℚ) : ℤ :=
  if q - ⌊q⌋ < 1 / 2 then ⌊q⌋
  else if (1 : ℚ) / 2 < q - ⌊q⌋ then ⌊q⌋ + 1
  else if Even ⌊q⌋ then ⌊q⌋ else ⌊q⌋ + 1

/-- Rounding half to even of the nonnegative fraction `s / n`, carried out
in integer arithmetic (`2 * (s % n)` against `n`); this is `np.round` of the
mean of `s` coordinate values over `n` pixels.  The agreement with
`roundHalfEven` of the rational mean is proved in `roundHalfEvenDiv_eq`. -/
def roundHalfEvenDiv (s n : ℕ) : ℕ :=
  if 2 * (s % n) < n then s / n
  else if n < 2 * (s % n) then s / n + 1
  else if Even (s / n) then s / n else s / n + 1

/-- Voxel written for a region: `(mid_frame, int(round(py)), int(round(px)))`
(line 170 of utils.py), the rounded centroid placed in the `mid_frame`
slice. -/
def seedKey {H W : ℕ} (mid_frame : ℕ) (S : Finset (Pix2 H W)) : ℕ × ℕ × ℕ :=
  (mid_frame, roundHalfEvenDiv (∑ p ∈ S, p.1.val) S.card,
    roundHalfEvenDiv (∑ p ∈ S, p.2.val) S.card)

/-- Sequential in-place updates `f[key] := val` of a function, one per list
entry, later entries overwriting earlier ones (the seed-placement loop). -/
def applyWrites {β γ : Type} [DecidableEq β] (init : β → γ)
    (ws : List (β × γ)) : β → γ :=
  ws.foldl (fun f w => fun v => if v = w.1 then w.2 else f v) init

/-- The ordered seed writes of `get_3dseed_from_mid_frame`: the `idx`-th
surviving component deposits id `base + idx + 1` (with `base = 1` when a
background seed was placed first) at its rounded centroid in the `mid_frame`
slice. -/
def seedWrites {H W : ℕ} (comps : List (Finset (Pix2 H W)))
    (mid_frame : ℕ) (base : ℕ) : List ((ℕ × ℕ × ℕ) × ℕ) :=
  (List.range comps.length).map
    (fun i => (seedKey mid_frame (comps.getD i ∅), base + i + 1))

/-- Embedding of `get_3dseed_from_mid_frame` (lines 153-172) for a 2D input
mask: filter small objects away (4-connectivity, the library default),
label the survivors (8-connectivity, the 2D default of `label`), seed the
whole `z = 0` slice of the `stack_shape`-sized volume with 1 when `bg_seed`,
then write one strictly increasing id per component at its rounded centroid
in the `mid_frame` slice.  The result maps every voxel of `ℕ³` to its final
value; voxels outside `stack_shape` were never touched by the source and
read `0`. -/
def get_3dseed_from_mid_frame {H W : ℕ} (bw : Pix2 H W → Int)
    (stack_shape : ℕ × ℕ × ℕ) (mid_frame hole_min : ℕ) (bg_seed : Bool) :
    ℕ × ℕ × ℕ → ℕ :=
  let bwB := fun p => decide (bw p > 0)
  let out := remove_small_objects bwB hole_min
  let comps := compsList out
  let seed0 : ℕ × ℕ × ℕ → ℕ := fun v =>
    if bg_seed && decide (v.1 = 0) && decide (v.2.1 < stack_shape.2.1) &&
        decide (v.2.2 < stack_shape.2.2) then 1 else 0
  let base : ℕ := if bg_seed then 1 else 0
  applyWrites seed0 (seedWrites comps mid_frame base)

/-- The ordered list of seed voxels used by `get_3dseed_from_mid_frame` for
a given input (one rounded-centroid key per surviving component). -/
def seedKeysOf {H W : ℕ} (bw : Pix2 H W → Int) (mid_frame hole_min : ℕ) :
    List (ℕ × ℕ × ℕ) :=
  (compsList (remove_small_objects (fun p => decide (bw p > 0)) hole_min)).map
    (seedKey mid_frame)

section ComponentLemmas

variable {α : Type} [Fintype α] [DecidableEq α]
variable {adj : α → α → Bool} {m : α → Bool}

theorem mem_grow {S : Finset α} {r : α} :
    r ∈ grow adj m S ↔ r ∈ S ∨ ∃ q ∈ S, stepB adj m q r = true := by
  simp [grow]

theorem subset_grow (S : Finset α) : S ⊆ grow adj m S :=
  fun _ hx => Finset.mem_union_left _ hx

theorem grow_mono {S T : Finset α} (h : S ⊆ T) :
    grow adj m S ⊆ grow adj m T := by
  intro r hr
  rcases mem_grow.1 hr with hr | ⟨q, hq, hs⟩
  · exact mem_grow.2 (Or.inl (h hr))
  · exact mem_grow.2 (Or.inr ⟨q, h hq, hs⟩)

theorem grow_empty : grow adj m (∅ : Finset α) = ∅ := by
  ext r
  simp [grow]

theorem stepB_mask_left {q r : α} (h : stepB adj m q r = true) : m q = true := by
  simp only [stepB, Bool.and_eq_true] at h
  exact h.1.2

theorem stepB_mask_right {q r : α} (h : stepB adj m q r = true) : m r = true := by
  simp only [stepB, Bool.and_eq_true] at h
  exact h.2

theorem compIter_subset_succ (n : ℕ) (p : α) :
    compIter adj m n p ⊆ compIter adj m (n + 1) p :=
  subset_grow _

theorem compIter_stable {n : ℕ} {p : α}
    (h : compIter adj m (n + 1) p = compIter adj m n p) :
    ∀ k, compIter adj m (n + k) p = compIter adj m n p := by
  intro k
  induction k with
  | zero => rfl
  | succ k ih =>
      have : compIter adj m (n + (k + 1)) p = grow adj m (compIter adj m (n + k) p) := rfl
      rw [this, ih]
      exact h

theorem compIter_card_grows {p : α} :
    ∀ n, (∀ k, k < n → compIter adj m (k + 1) p ≠ compIter adj m k p) →
      n ≤ (compIter adj m n p).card := by
  intro n
  induction n with
  | zero => exact fun _ => Nat.zero_le _
  | succ n ih =>
      intro h
      have h1 : n ≤ (compIter adj m n p).card :=
        ih (fun k hk => h k (Nat.lt_succ_of_lt hk))
      have h2 : compIter adj m (n + 1) p ≠ compIter adj m n p :=
        h n (Nat.lt_succ_self n)
      have h3 : compIter adj m n p ⊂ compIter adj m (n + 1) p :=
        (Finset.ssubset_iff_of_subset (compIter_subset_succ n p)).2
          (by
            by_contra hno
            push_neg at hno
            exact h2 (Finset.Subset.antisymm
              (fun x hx => by
                by_contra hxn
                exact hxn (by
                  rcases mem_grow.1 hx with hx' | ⟨q, hq, hs⟩
                  · exact hx'
                  · exact absurd (mem_grow.2 (Or.inr ⟨q, hq, hs⟩)) (by
                      intro hmem
                      exact hxn (hno x hmem)))) (compIter_subset_succ n p)))
      exact Nat.succ_le_of_lt (lt_of_le_of_lt h1 (Finset.card_lt_card h3))

theorem exists_stable_compIter (p : α) :
    ∃ k, k ≤ Fintype.card α ∧ compIter adj m (k + 1) p = compIter adj m k p := by
  by_contra hno
  push_neg at hno
  have h : ∀ k, k < Fintype.card α + 1 → compIter adj m (k + 1) p ≠ compIter adj m k p :=
    fun k hk => hno k (Nat.lt_succ_iff.1 hk)
  have := compIter_card_grows (Fintype.card α + 1) h
  have hle : (compIter adj m (Fintype.card α + 1) p).card ≤ Fintype.card α := by
    calc (compIter adj m (Fintype.card α + 1) p).card
        ≤ (Finset.univ : Finset α).card := Finset.card_le_card (Finset.subset_univ _)
      _ = Fintype.card α := Finset.card_univ
  omega

theorem grow_compOf (p : α) :
    grow adj m (compOf adj m p) = compOf adj m p := by
  obtain ⟨k, hk, hfix⟩ := @exists_stable_compIter α _ _ adj m p
  have hN : compIter adj m (Fintype.card α) p = compIter adj m k p := by
    have := compIter_stable hfix (Fintype.card α - k)
    rwa [Nat.add_sub_cancel' hk] at this
  show grow adj m (compIter adj m (Fintype.card α) p) = compIter adj m (Fintype.card α) p
  rw [hN]
  exact hfix

theorem mask_of_mem_compIter {p q : α} :
    ∀ {n}, q ∈ compIter adj m n p → m q = true := by
  intro n
  induction n with
  | zero =>
      intro h
      by_cases hm : m p = true
      · simp [compIter, hm] at h
        rwa [h]
      · simp [compIter, hm] at h
  | succ n ih =>
      intro h
      rcases mem_grow.1 h with h' | ⟨q', _, hs⟩
      · exact ih h'
      · exact stepB_mask_right hs

theorem mask_of_mem_compOf {p q : α} (h : q ∈ compOf adj m p) : m q = true :=
  mask_of_mem_compIter h

theorem compIter_of_not_mask {p : α} (h : m p = false) :
    ∀ n, compIter adj m n p = ∅ := by
  intro n
  induction n with
  | zero => simp [compIter, h]
  | succ n ih =>
      show grow adj m (compIter adj m n p) = ∅
      rw [ih, grow_empty]

theorem mask_of_compOf_mem {p q : α} (h : q ∈ compOf adj m p) : m p = true := by
  by_contra hm
  have hf : m p = false := by simpa using hm
  rw [compOf, compIter_of_not_mask hf] at h
  exact absurd h (Finset.not_mem_empty q)

theorem mem_compOf_self {p : α} (h : m p = true) : p ∈ compOf adj m p := by
  have h0 : p ∈ compIter adj m 0 p := by simp [compIter, h]
  have : ∀ n, compIter adj m n p ⊆ compIter adj m (n + 1) p :=
    fun n => compIter_subset_succ n p
  have hmono : ∀ n, p ∈ compIter adj m n p := by
    intro n
    induction n with
    | zero => exact h0
    | succ n ih => exact compIter_subset_succ n p ih
  exact hmono _

theorem compOf_closed {p q r : α} (hq : q ∈ compOf adj m p)
    (hs : stepB adj m q r = true) : r ∈ compOf adj m p := by
  rw [← grow_compOf p]
  exact mem_grow.2 (Or.inr ⟨q, hq, hs⟩)

theorem compIter_subset_compOf (n : ℕ) (p : α) :
    compIter adj m n p ⊆ compOf adj m p := by
  induction n with
  | zero =>
      intro q hq
      by_cases hm : m p = true
      · simp [compIter, hm] at hq
        rw [hq]
        exact mem_compOf_self hm
      · simp [compIter, hm] at hq
  | succ n ih =>
      intro q hq
      rcases mem_grow.1 hq with h' | ⟨q', hq', hs⟩
      · exact ih h'
      · exact compOf_closed (ih hq') hs

theorem compOf_induction {p : α} (P : α → Prop) (base : P p)
    (step : ∀ q r, q ∈ compOf adj m p → P q → stepB adj m q r = true → P r) :
    ∀ q ∈ compOf adj m p, P q := by
  have haux : ∀ n, ∀ q ∈ compIter adj m n p, P q := by
    intro n
    induction n with
    | zero =>
        intro q hq
        by_cases hm : m p = true
        · simp [compIter, hm] at hq
          rwa [hq]
        · simp [compIter, hm] at hq
    | succ n ih =>
        intro q hq
        rcases mem_grow.1 hq with h' | ⟨q', hq', hs⟩
        · exact ih q h'
        · exact step q' q (compIter_subset_compOf n p hq') (ih q' hq') hs
  exact haux (Fintype.card α)

theorem compOf_subset_of_mem {p q : α} (h : q ∈ compOf adj m p) :
    compOf adj m q ⊆ compOf adj m p := by
  intro r hr
  exact compOf_induction (p := q) (fun s => s ∈ compOf adj m p) h
    (fun a b _ ha hs => compOf_closed ha hs) r hr

theorem stepB_symm (hadj : ∀ a b, adj a b = adj b a) {q r : α}
    (h : stepB adj m q r = true) : stepB adj m r q = true := by
  simp only [stepB, Bool.and_eq_true] at h ⊢
  exact ⟨⟨hadj r q ▸ h.1.1, h.2⟩, h.1.2⟩

theorem mem_compOf_symm (hadj : ∀ a b, adj a b = adj b a) {p q : α}
    (h : q ∈ compOf adj m p) : p ∈ compOf adj m q := by
  refine compOf_induction (p := p) (fun s => p ∈ compOf adj m s) ?_ ?_ q h
  · exact mem_compOf_self (mask_of_compOf_mem h)
  · intro a b _ ha hs
    have hmb : m b = true := stepB_mask_right hs
    have hba : a ∈ compOf adj m b :=
      compOf_closed (mem_compOf_self hmb) (stepB_symm hadj hs)
    exact compOf_subset_of_mem hba ha

theorem compOf_eq_of_mem (hadj : ∀ a b, adj a b = adj b a) {p q : α}
    (h : q ∈ compOf adj m p) : compOf adj m q = compOf adj m p :=
  Finset.Subset.antisymm (compOf_subset_of_mem h)
    (compOf_subset_of_mem (mem_compOf_symm hadj h))

end ComponentLemmas

section LabelLemmas

variable {α : Type} [Fintype α] [DecidableEq α]
variable {adj : α → α → Bool} {m : α → Bool} {ι : α → ℕ}

theorem stepB_adj {q r : α} (h : stepB adj m q r = true) : adj q r = true := by
  simp only [stepB, Bool.and_eq_true] at h
  exact h.1.1

theorem compMin_spec {p : α} (h : m p = true) :
    ∃ r ∈ compOf adj m p, ι r = compMin ι adj m p := by
  have hne : ((compOf adj m p).image ι).Nonempty :=
    ⟨ι p, Finset.mem_image_of_mem ι (mem_compOf_self h)⟩
  obtain ⟨a, ha⟩ := Finset.min_of_nonempty hne
  have hmem : a ∈ (compOf adj m p).image ι := Finset.mem_of_min ha
  obtain ⟨r, hr, hra⟩ := Finset.mem_image.1 hmem
  refine ⟨r, hr, ?_⟩
  rw [compMin, ha]
  exact hra

theorem compMin_le {p q : α} (hq : q ∈ compOf adj m p) :
    compMin ι adj m p ≤ ι q := by
  have h1 : ((compOf adj m p).image ι).min ≤ (ι q : WithTop ℕ) :=
    Finset.min_le (Finset.mem_image_of_mem ι hq)
  have hne : ((compOf adj m p).image ι).Nonempty :=
    ⟨ι q, Finset.mem_image_of_mem ι hq⟩
  obtain ⟨a, ha⟩ := Finset.min_of_nonempty hne
  rw [ha] at h1
  have h2 : a ≤ ι q := WithTop.coe_le_coe.1 h1
  rw [compMin, ha]
  exact h2

theorem compMin_congr (hadj : ∀ a b, adj a b = adj b a) {p q : α}
    (h : q ∈ compOf adj m p) :
    compMin ι adj m q = compMin ι adj m p := by
  rw [compMin, compMin, compOf_eq_of_mem hadj h]

theorem labelOf_ne_zero {p : α} (h : m p = true) :
    labelOf ι adj m p ≠ 0 := by
  simp [labelOf, h]

theorem labelOf_zero {p : α} (h : m p = false) :
    labelOf ι adj m p = 0 := by
  simp [labelOf, h]

theorem labelOf_congr (hadj : ∀ a b, adj a b = adj b a) {p q : α}
    (h : q ∈ compOf adj m p) :
    labelOf ι adj m q = labelOf ι adj m p := by
  have hq : m q = true := mask_of_mem_compOf h
  have hp : m p = true := mask_of_compOf_mem h
  rw [labelOf, labelOf, if_pos hq, if_pos hp, compMin_congr hadj h]

theorem comp_eq_of_compMin_eq (hadj : ∀ a b, adj a b = adj b a)
    (hidx : Function.Injective ι) {p q : α}
    (hp : m p = true) (hq : m q = true)
    (h : compMin ι adj m p = compMin ι adj m q) :
    compOf adj m p = compOf adj m q := by
  obtain ⟨rp, hrp, hrpe⟩ := compMin_spec (ι := ι) hp
  obtain ⟨rq, hrq, hrqe⟩ := compMin_spec (ι := ι) hq
  have hre : rp = rq := hidx (by rw [hrpe, hrqe, h])
  rw [← compOf_eq_of_mem hadj hrp, hre, compOf_eq_of_mem hadj hrq]

theorem labelOf_lt_of_compMin_lt (hadj : ∀ a b, adj a b = adj b a) {p q : α}
    (hp : m p = true) (hq : m q = true)
    (h : compMin ι adj m p < compMin ι adj m q) :
    labelOf ι adj m p < labelOf ι adj m q := by
  rw [labelOf, labelOf, if_pos hp, if_pos hq]
  have hsub : (Finset.univ.filter
      (fun r => m r = true ∧ compMin ι adj m r = ι r ∧ ι r < compMin ι adj m p)) ⊆
      (Finset.univ.filter
      (fun r => m r = true ∧ compMin ι adj m r = ι r ∧ ι r < compMin ι adj m q)) := by
    intro r hr
    simp only [Finset.mem_filter, Finset.mem_univ, true_and] at hr ⊢
    exact ⟨hr.1, hr.2.1, lt_trans hr.2.2 h⟩
  obtain ⟨rp, hrp, hrpe⟩ := compMin_spec (ι := ι) hp
  have hmrp : m rp = true := mask_of_mem_compOf hrp
  have hcm : compMin ι adj m rp = ι rp := by
    rw [compMin_congr hadj hrp, hrpe]
  have hin : rp ∈ Finset.univ.filter
      (fun r => m r = true ∧ compMin ι adj m r = ι r ∧ ι r < compMin ι adj m q) := by
    simp only [Finset.mem_filter, Finset.mem_univ, true_and]
    exact ⟨hmrp, hcm, by rw [hrpe]; exact h⟩
  have hnotin : rp ∉ Finset.univ.filter
      (fun r => m r = true ∧ compMin ι adj m r = ι r ∧ ι r < compMin ι adj m p) := by
    simp only [Finset.mem_filter, Finset.mem_univ, true_and]
    rintro ⟨-, -, hlt⟩
    rw [hrpe] at hlt
    exact lt_irrefl _ hlt
  have hcard := Finset.card_lt_card ((Finset.ssubset_iff_of_subset hsub).2 ⟨rp, hin, hnotin⟩)
  omega

theorem compOf_eq_of_labelOf_eq (hadj : ∀ a b, adj a b = adj b a)
    (hidx : Function.Injective ι) {p q : α}
    (hp : m p = true) (hq : m q = true)
    (h : labelOf ι adj m p = labelOf ι adj m q) :
    compOf adj m p = compOf adj m q := by
  rcases lt_trichotomy (compMin ι adj m p) (compMin ι adj m q) with hlt | heq | hgt
  · exact absurd h (ne_of_lt (labelOf_lt_of_compMin_lt hadj hp hq hlt))
  · exact comp_eq_of_compMin_eq hadj hidx hp hq heq
  · exact absurd h.symm (ne_of_lt (labelOf_lt_of_compMin_lt hadj hq hp hgt))

theorem bincount_labelOf (hadj : ∀ a b, adj a b = adj b a)
    (hidx : Function.Injective ι) {p : α} (hp : m p = true) :
    bincountLab ι adj m (labelOf ι adj m p) = compSize adj m p := by
  rw [bincountLab, compSize]
  congr 1
  ext q
  simp only [Finset.mem_filter, Finset.mem_univ, true_and]
  constructor
  · intro h
    by_cases hmq : m q = true
    · have hcomp := compOf_eq_of_labelOf_eq hadj hidx hmq hp h
      rw [← hcomp]
      exact mem_compOf_self hmq
    · have hz : labelOf ι adj m q = 0 := labelOf_zero (by simpa using hmq)
      rw [hz] at h
      exact absurd h.symm (labelOf_ne_zero hp)
  · intro h
    exact labelOf_congr hadj h

theorem fill_mask_iff (hadj : ∀ a b, adj a b = adj b a)
    (hidx : Function.Injective ι) {hole_min hole_max : ℕ} {p : α} :
    fill_mask ι adj m hole_min hole_max p = true ↔
      m p = true ∧ hole_min ≤ compSize adj m p ∧ compSize adj m p ≤ hole_max := by
  by_cases hp : m p = true
  · have hbc := bincount_labelOf (ι := ι) hadj hidx hp
    simp only [fill_mask, hbc, Bool.and_eq_true, Bool.not_eq_true', decide_eq_true_eq,
      decide_eq_false_iff_not, not_lt]
    constructor
    · rintro ⟨⟨-, h1⟩, h2⟩
      exact ⟨hp, h2, h1⟩
    · rintro ⟨-, h1, h2⟩
      exact ⟨⟨labelOf_ne_zero hp, h2⟩, h1⟩
  · have hf : m p = false := by simpa using hp
    simp [fill_mask, labelOf_zero (ι := ι) hf, hf]

theorem compOf_congr_restrict (hadj : ∀ a b, adj a b = adj b a) {m' : α → Bool}
    (hsub : ∀ q, m' q = true → m q = true)
    (hclosed : ∀ q r, m' q = true → r ∈ compOf adj m q → m' r = true)
    {p : α} (hp : m' p = true) : compOf adj m' p = compOf adj m p := by
  apply Finset.Subset.antisymm
  · intro r hr
    refine compOf_induction (m := m') (p := p) (fun s => s ∈ compOf adj m p) ?_ ?_ r hr
    · exact mem_compOf_self (hsub p hp)
    · intro a b _ ha hs
      have hstep : stepB adj m a b = true := by
        simp only [stepB, Bool.and_eq_true]
        exact ⟨⟨stepB_adj hs, hsub a (stepB_mask_left hs)⟩, hsub b (stepB_mask_right hs)⟩
      exact compOf_closed ha hstep
  · intro r hr
    refine compOf_induction (m := m) (p := p) (fun s => s ∈ compOf adj m' p) ?_ ?_ r hr
    · exact mem_compOf_self hp
    · intro a b hamem ha hs
      have hbm : b ∈ compOf adj m p := compOf_closed hamem hs
      have hstep : stepB adj m' a b = true := by
        simp only [stepB, Bool.and_eq_true]
        exact ⟨⟨stepB_adj hs, mask_of_mem_compOf ha⟩, hclosed p b hp hbm⟩
      exact compOf_closed ha hstep

theorem fill_window_false (hadj : ∀ a b, adj a b = adj b a)
    (hidx : Function.Injective ι) {hole_min hole_max : ℕ} {p : α}
    (h : fill_mask ι adj m hole_min hole_max p = false) (hp : m p = true) :
    ¬(hole_min ≤ compSize adj m p ∧ compSize adj m p ≤ hole_max) := by
  intro hw
  have := (fill_mask_iff hadj hidx).2 ⟨hp, hw.1, hw.2⟩
  rw [h] at this
  exact Bool.false_ne_true this

theorem hfB_idem (hadj : ∀ a b, adj a b = adj b a)
    (hidx : Function.Injective ι) (bwB : α → Bool) (hole_min hole_max : ℕ) :
    hfB ι adj (hfB ι adj bwB hole_min hole_max) hole_min hole_max
      = hfB ι adj bwB hole_min hole_max := by
  funext p
  have hm1 : ∀ q, (!(hfB ι adj bwB hole_min hole_max q)) = true ↔
      ((!bwB q) = true ∧ fill_mask ι adj (fun r => !bwB r) hole_min hole_max q = false) := by
    intro q
    simp only [hfB]
    cases hb : bwB q <;>
      cases hf : fill_mask ι adj (fun r => !bwB r) hole_min hole_max q <;>
        simp [hb, hf]
  have hsub : ∀ q, (!(hfB ι adj bwB hole_min hole_max q)) = true → (!bwB q) = true :=
    fun q hq => ((hm1 q).1 hq).1
  have hwin : ∀ q, (!(hfB ι adj bwB hole_min hole_max q)) = true →
      ¬(hole_min ≤ compSize adj (fun r => !bwB r) q ∧
        compSize adj (fun r => !bwB r) q ≤ hole_max) := by
    intro q hq
    exact fill_window_false hadj hidx ((hm1 q).1 hq).2 (hsub q hq)
  have hclosed : ∀ q r, (!(hfB ι adj bwB hole_min hole_max q)) = true →
      r ∈ compOf adj (fun s => !bwB s) q →
      (!(hfB ι adj bwB hole_min hole_max r)) = true := by
    intro q r hq hr
    have hmr : (!bwB r) = true := mask_of_mem_compOf (m := fun s => !bwB s) hr
    have hcr : compOf adj (fun s => !bwB s) r = compOf adj (fun s => !bwB s) q :=
      compOf_eq_of_mem hadj hr
    rw [hm1 r]
    refine ⟨hmr, ?_⟩
    by_contra hne
    have hfr : fill_mask ι adj (fun s => !bwB s) hole_min hole_max r = true := by
      cases hb : fill_mask ι adj (fun s => !bwB s) hole_min hole_max r
      · exact absurd hb hne
      · rfl
    rw [fill_mask_iff hadj hidx] at hfr
    have hsz : compSize adj (fun s => !bwB s) r = compSize adj (fun s => !bwB s) q := by
      rw [compSize, compSize, hcr]
    rw [hsz] at hfr
    exact hwin q hq ⟨hfr.2.1, hfr.2.2⟩
  have hfill0 : fill_mask ι adj
      (fun q => !(hfB ι adj bwB hole_min hole_max q)) hole_min hole_max p = false := by
    by_cases hm1p : (!(hfB ι adj bwB hole_min hole_max p)) = true
    · have hcomp : compOf adj (fun q => !(hfB ι adj bwB hole_min hole_max q)) p
          = compOf adj (fun q => !bwB q) p :=
        compOf_congr_restrict hadj hsub hclosed hm1p
      by_contra hne
      have hfp : fill_mask ι adj
          (fun q => !(hfB ι adj bwB hole_min hole_max q)) hole_min hole_max p = true := by
        cases hb : fill_mask ι adj
            (fun q => !(hfB ι adj bwB hole_min hole_max q)) hole_min hole_max p
        · exact absurd hb hne
        · rfl
      rw [fill_mask_iff hadj hidx] at hfp
      have hsz : compSize adj (fun q => !(hfB ι adj bwB hole_min hole_max q)) p
          = compSize adj (fun q => !bwB q) p := by
        rw [compSize, compSize, hcomp]
      rw [hsz] at hfp
      exact hwin p hm1p ⟨hfp.2.1, hfp.2.2⟩
    · by_contra hne
      have hfp : fill_mask ι adj
          (fun q => !(hfB ι adj bwB hole_min hole_max q)) hole_min hole_max p = true := by
        cases hb : fill_mask ι adj
            (fun q => !(hfB ι adj bwB hole_min hole_max q)) hole_min hole_max p
        · exact absurd hb hne
        · rfl
      rw [fill_mask_iff hadj hidx] at hfp
      exact hm1p hfp.1
  show (hfB ι adj bwB hole_min hole_max p ||
      fill_mask ι adj (fun q => !(hfB ι adj bwB hole_min hole_max q)) hole_min hole_max p)
      = hfB ι adj bwB hole_min hole_max p
  rw [hfill0, Bool.or_false]

end LabelLemmas

theorem decide_eq_symm {β : Type} [DecidableEq β] (a b : β) :
    decide (a = b) = decide (b = a) := by
  simp [eq_comm]

theorem decide_ne_symm {β : Type} [DecidableEq β] (a b : β) :
    decide (a ≠ b) = decide (b ≠ a) := by
  simp [ne_comm]

theorem near1_symm (a b : ℕ) : near1 a b = near1 b a := by
  rw [near1, near1, Bool.or_comm]

theorem adj4_symm {H W : ℕ} (p q : Pix2 H W) : adj4 p q = adj4 q p := by
  rw [adj4, adj4, decide_eq_symm p.1 q.1, decide_eq_symm p.2 q.2,
    near1_symm p.2.val q.2.val, near1_symm p.1.val q.1.val]

theorem adj8_symm {H W : ℕ} (p q : Pix2 H W) : adj8 p q = adj8 q p := by
  rw [adj8, adj8, decide_ne_symm p q, Nat.dist_comm p.1.val q.1.val,
    Nat.dist_comm p.2.val q.2.val]

theorem adj6_symm {D H W : ℕ} (u v : Pix3 D H W) : adj6 u v = adj6 v u := by
  rw [adj6, adj6, decide_eq_symm u.1 v.1, decide_eq_symm u.2.1 v.2.1,
    decide_eq_symm u.2.2 v.2.2, decide_eq_symm u.2 v.2,
    near1_symm u.2.2.val v.2.2.val, near1_symm u.2.1.val v.2.1.val,
    near1_symm u.1.val v.1.val]

theorem idx2_inj {H W : ℕ} : Function.Injective (fun p : Pix2 H W => idx2 p) := by
  intro p q h
  simp only [idx2] at h
  have hW : 0 < W := p.2.pos
  have h2 : p.2.val = q.2.val := by
    have hm := congrArg (fun t => t % W) h
    simp only [mul_comm _ W, Nat.mul_add_mod] at hm
    rwa [Nat.mod_eq_of_lt p.2.isLt, Nat.mod_eq_of_lt q.2.isLt] at hm
  have h1 : p.1.val = q.1.val := by
    rw [h2] at h
    have hc : p.1.val * W = q.1.val * W := Nat.add_right_cancel h
    exact Nat.eq_of_mul_eq_mul_right hW hc
  exact Prod.ext (Fin.ext h1) (Fin.ext h2)

theorem idx3_inj {D H W : ℕ} : Function.Injective (fun v : Pix3 D H W => idx3 v) := by
  intro u v h
  simp only [idx3] at h
  have hW : 0 < W := u.2.2.pos
  have hH : 0 < H := u.2.1.pos
  have h3 : u.2.2.val = v.2.2.val := by
    have hm := congrArg (fun t => t % W) h
    simp only [mul_comm _ W, Nat.mul_add_mod] at hm
    rwa [Nat.mod_eq_of_lt u.2.2.isLt, Nat.mod_eq_of_lt v.2.2.isLt] at hm
  have hlev : u.1.val * H + u.2.1.val = v.1.val * H + v.2.1.val := by
    rw [h3] at h
    have hc := Nat.add_right_cancel h
    exact Nat.eq_of_mul_eq_mul_right hW hc
  have h2 : u.2.1.val = v.2.1.val := by
    have hm := congrArg (fun t => t % H) hlev
    simp only [mul_comm _ H, Nat.mul_add_mod] at hm
    rwa [Nat.mod_eq_of_lt u.2.1.isLt, Nat.mod_eq_of_lt v.2.1.isLt] at hm
  have h1 : u.1.val = v.1.val := by
    rw [h2] at hlev
    have hc : u.1.val * H = v.1.val * H := Nat.add_right_cancel hlev
    exact Nat.eq_of_mul_eq_mul_right hH hc
  exact Prod.ext (Fin.ext h1) (Prod.ext (Fin.ext h2) (Fin.ext h3))

theorem toIntGrid_pos {β : Type} (b : β → Bool) (v : β) :
    decide (toIntGrid b v > 0) = b v := by
  cases h : b v <;> simp [toIntGrid, h]

theorem hole_filling_2d_as_hfB {H W : ℕ} (b : Pix2 H W → Bool)
    (hole_min hole_max : ℕ) :
    hole_filling_2d (toIntGrid b) hole_min hole_max
      = hfB idx2 adj4 b hole_min hole_max := by
  have hb : (fun p : Pix2 H W => decide (toIntGrid b p > 0)) = b :=
    funext fun p => toIntGrid_pos b p
  rw [hole_filling_2d, hb]

theorem hole_filling_3d_full_as_hfB {D H W : ℕ} (b : Pix3 D H W → Bool)
    (hole_min hole_max : ℕ) :
    hole_filling_3d_full (toIntGrid b) hole_min hole_max
      = hfB idx3 adj6 b hole_min hole_max := by
  have hb : (fun v : Pix3 D H W => decide (toIntGrid b v > 0)) = b :=
    funext fun v => toIntGrid_pos b v
  rw [hole_filling_3d_full, hb]

/-- C1: on every 2D or 3D boolean volume, `hole_filling` is a superset of
the thresholded input: every voxel with `bw > 0` is foreground in the
output, in all three branches (2D, 3D slice-wise, 3D full-volume), because
the result is the logical OR of the original mask with the fill mask. -/
theorem hole_filling_superset {D H W : ℕ} (bw2 : Pix2 H W → Int)
    (bw3 : Pix3 D H W → Int) (hole_min hole_max : ℕ) :
    (∀ p, bw2 p > 0 → hole_filling_2d bw2 hole_min hole_max p = true) ∧
    (∀ v, bw3 v > 0 → hole_filling_3d_2dfill bw3 hole_min hole_max v = true) ∧
    (∀ v, bw3 v > 0 → hole_filling_3d_full bw3 hole_min hole_max v = true) := by
  refine ⟨?_, ?_, ?_⟩
  · intro p h
    simp [hole_filling_2d, hfB, decide_eq_true h]
  · intro v h
    simp [hole_filling_3d_2dfill, hole_filling_2d, hfB, decide_eq_true h]
  · intro v h
    simp [hole_filling_3d_full, hfB, decide_eq_true h]

/-- Witness for C1: a concrete all-foreground 1×1 image, evaluated at its
only pixel. -/
theorem hole_filling_superset_witness :
    ((1 : Int) > 0) ∧
      hole_filling_2d (fun _ : Pix2 1 1 => (1 : Int)) 0 4 (0, 0) = true :=
  ⟨by norm_num,
    (hole_filling_superset (fun _ : Pix2 1 1 => (1 : Int))
      (fun _ : Pix3 1 1 1 => (1 : Int)) 0 4).1 (0, 0) (by norm_num)⟩

/-- C2: in the 2D branch of `hole_filling`, a pixel of the inverted mask is
foreground in the output iff the size of its 4-connectivity component in
the inverted mask lies in the window `hole_min ≤ size ≤ hole_max`;
components strictly bigger than `hole_max` or strictly smaller than
`hole_min` are excluded from the fill. -/
theorem hole_filling_2d_fill_iff {H W : ℕ} (bw : Pix2 H W → Int)
    (hole_min hole_max : ℕ) (p : Pix2 H W) (h : ¬(bw p > 0)) :
    (hole_filling_2d bw hole_min hole_max p = true ↔
      hole_min ≤ compSize adj4 (fun q => !decide (bw q > 0)) p ∧
        compSize adj4 (fun q => !decide (bw q > 0)) p ≤ hole_max) := by
  have hb : decide (bw p > 0) = false := by simp [h]
  simp only [hole_filling_2d, hfB, hb, Bool.false_or]
  rw [fill_mask_iff adj4_symm idx2_inj]
  simp [hb]

/-- Witness for C2: the 1×3 image `[1, 0, 1]` whose single background pixel
forms a size-1 hole, filled with window `[1, 1]`. -/
theorem hole_filling_2d_fill_iff_witness :
    (¬((fun q : Pix2 1 3 => if q.2.val = 1 then (0 : Int) else 1) (0, 1) > 0)) ∧
    (hole_filling_2d (fun q : Pix2 1 3 => if q.2.val = 1 then (0 : Int) else 1)
        1 1 (0, 1) = true ↔
      1 ≤ compSize adj4
          (fun q : Pix2 1 3 =>
            !decide ((fun q : Pix2 1 3 => if q.2.val = 1 then (0 : Int) else 1) q > 0)) (0, 1) ∧
        compSize adj4
          (fun q : Pix2 1 3 =>
            !decide ((fun q : Pix2 1 3 => if q.2.val = 1 then (0 : Int) else 1) q > 0)) (0, 1) ≤ 1) :=
  ⟨by decide,
    hole_filling_2d_fill_iff (fun q : Pix2 1 3 => if q.2.val = 1 then (0 : Int) else 1)
      1 1 (0, 1) (by decide)⟩

/-- C7: an input whose dimensionality is neither 2 nor 3 reaches the `else`
branch of `hole_filling`, which produces no result at all (the source prints
an error message and returns `None`). -/
theorem hole_filling_invalid_ndim (shape : List ℕ) (data : List ℕ → Int)
    (hole_min hole_max : ℕ) (fill_2d : Bool)
    (h2 : shape.length ≠ 2) (h3 : shape.length ≠ 3) :
    hole_filling shape data hole_min hole_max fill_2d = none := by
  rcases shape with - | ⟨a, rest⟩
  · rfl
  rcases rest with - | ⟨b, rest2⟩
  · rfl
  rcases rest2 with - | ⟨c, rest3⟩
  · exact absurd rfl h2
  rcases rest3 with - | ⟨d, rest4⟩
  · exact absurd rfl h3
  rfl

/-- Witness for C7: a 1-dimensional shape is rejected. -/
theorem hole_filling_invalid_ndim_witness :
    (([5] : List ℕ).length ≠ 2) ∧ (([5] : List ℕ).length ≠ 3) ∧
      hole_filling [5] (fun _ => (0 : Int)) 1 2 true = none :=
  ⟨by decide, by decide,
    hole_filling_invalid_ndim [5] (fun _ => (0 : Int)) 1 2 true
      (by decide) (by decide)⟩

/-- C8: hole filling is idempotent in each of its three branches: feeding
the boolean output back in (as the 0/1 integer volume the source would pass)
with the same bounds reproduces the same output.  The filled holes are gone
from the inverted mask of the output, and the surviving background
components are exactly the original out-of-window components, so the second
pass fills nothing new. -/
theorem hole_filling_idempotent {D H W : ℕ} (bw2 : Pix2 H W → Int)
    (bw3 : Pix3 D H W → Int) (hole_min hole_max : ℕ) :
    hole_filling_2d (toIntGrid (hole_filling_2d bw2 hole_min hole_max))
        hole_min hole_max = hole_filling_2d bw2 hole_min hole_max ∧
    hole_filling_3d_2dfill
        (toIntGrid (hole_filling_3d_2dfill bw3 hole_min hole_max))
        hole_min hole_max = hole_filling_3d_2dfill bw3 hole_min hole_max ∧
    hole_filling_3d_full (toIntGrid (hole_filling_3d_full bw3 hole_min hole_max))
        hole_min hole_max = hole_filling_3d_full bw3 hole_min hole_max := by
  have h2d : ∀ (g : Pix2 H W → Int),
      hole_filling_2d (toIntGrid (hole_filling_2d g hole_min hole_max))
        hole_min hole_max = hole_filling_2d g hole_min hole_max := by
    intro g
    rw [hole_filling_2d_as_hfB, hole_filling_2d]
    exact hfB_idem adj4_symm idx2_inj _ _ _
  refine ⟨h2d bw2, ?_, ?_⟩
  · funext v
    show hole_filling_2d
        (fun p => toIntGrid (hole_filling_3d_2dfill bw3 hole_min hole_max) (v.1, p))
        hole_min hole_max v.2 = _
    have hslice : (fun p =>
          toIntGrid (hole_filling_3d_2dfill bw3 hole_min hole_max) (v.1, p))
        = toIntGrid (hole_filling_2d (fun p => bw3 (v.1, p)) hole_min hole_max) := by
      funext p
      rfl
    rw [hslice, h2d]
    rfl
  · rw [hole_filling_3d_full_as_hfB, hole_filling_3d_full]
    exact hfB_idem adj6_symm idx3_inj _ _ _

/-- C4: in `topology_preserving_thinning`, exactly the voxels lying in both
`safe_zone` and `rm_candidate` are zeroed, every other voxel keeps its
thresholded input value, and in particular a voxel outside the safe zone is
never removed even when the `ball thin` erosion would remove it.  This holds
for every medial-axis routine `ma`. -/
theorem topology_preserving_thinning_frame {D H W : ℕ}
    (ma : (Pix2 H W → Bool) → Pix2 H W → Bool) (bw : Pix3 D H W → Int)
    (min_thickness thin : ℕ) (v : Pix3 D H W) :
    (topology_preserving_thinning ma bw min_thickness thin v =
      ((decide (bw v > 0)) &&
        !(safe_zone ma (fun u => decide (bw u > 0)) min_thickness v &&
          rm_candidate (fun u => decide (bw u > 0)) thin v))) ∧
    (safe_zone ma (fun u => decide (bw u > 0)) min_thickness v = false →
      topology_preserving_thinning ma bw min_thickness thin v
        = decide (bw v > 0)) := by
  have hunf : topology_preserving_thinning ma bw min_thickness thin v =
      (if safe_zone ma (fun u => decide (bw u > 0)) min_thickness v &&
          rm_candidate (fun u => decide (bw u > 0)) thin v then false
       else decide (bw v > 0)) := rfl
  constructor
  · rw [hunf]
    cases hs : safe_zone ma (fun u => decide (bw u > 0)) min_thickness v &&
        rm_candidate (fun u => decide (bw u > 0)) thin v
    · simp
    · simp
  · intro hs
    rw [hunf, hs]
    simp

/-- Witness for C4: an empty 1×1×1 volume, whose safe zone is everywhere
false (no slice has foreground), with the identity standing in for the
medial-axis routine. -/
theorem topology_preserving_thinning_frame_witness :
    (safe_zone (fun s => s) (fun u : Pix3 1 1 1 => decide ((fun _ => (0 : Int)) u > 0))
        1 ((0 : Fin 1), ((0 : Fin 1), (0 : Fin 1))) = false) ∧
      topology_preserving_thinning (fun s => s) (fun _ : Pix3 1 1 1 => (0 : Int)) 1 1
          ((0 : Fin 1), ((0 : Fin 1), (0 : Fin 1)))
        = decide ((0 : Int) > 0) :=
  ⟨by decide,
    (topology_preserving_thinning_frame (fun s => s) (fun _ : Pix3 1 1 1 => (0 : Int))
      1 1 ((0 : Fin 1), ((0 : Fin 1), (0 : Fin 1)))).2 (by decide)⟩

/-- C10: `divide_nonzero` never divides by zero: the denominator actually
used is the nonzero `1e-10` wherever `array2` vanishes and `array2` itself
elsewhere, the quotient is taken against that denominator, and the caller's
`array2` (returned as the second component, its state after the call) is
left unmodified because the substitution happens on the `np.copy`. -/
theorem divide_nonzero_safe {β : Type} (array1 array2 : β → ℚ) (v : β) :
    ((divide_nonzero array1 array2).2 = array2) ∧
    (dnDenominator array2 v ≠ 0) ∧
    ((divide_nonzero array1 array2).1 v = array1 v / dnDenominator array2 v) ∧
    (array2 v = 0 → dnDenominator array2 v = 1 / 10000000000) ∧
    (array2 v ≠ 0 → dnDenominator array2 v = array2 v) := by
  refine ⟨rfl, ?_, rfl, ?_, ?_⟩
  · rw [dnDenominator]
    by_cases h : array2 v = 0
    · simp [h]
    · simp [h]
  · intro h
    rw [dnDenominator, if_pos h]
  · intro h
    rw [dnDenominator, if_neg h]

/-- Witness for C10: a concrete array with a zero entry. -/
theorem divide_nonzero_safe_witness :
    ((fun _ : ℕ => (0 : ℚ)) 0 = 0) ∧
      dnDenominator (fun _ : ℕ => (0 : ℚ)) 0 = 1 / 10000000000 :=
  ⟨rfl, (divide_nonzero_safe (fun _ : ℕ => (1 : ℚ)) (fun _ : ℕ => (0 : ℚ)) 0).2.2.2.1 rfl⟩

theorem le_maxValQ : ∀ (l : List ℚ) (j : ℕ), j < l.length → l.getD j 0 ≤ maxValQ l := by
  intro l
  induction l with
  | nil => intro j h; simp at h
  | cons x xs ih =>
      intro j h
      cases xs with
      | nil =>
          cases j with
          | zero => simp [maxValQ]
          | succ j => simp at h
      | cons y ys =>
          have hm : maxValQ (x :: y :: ys) = max x (maxValQ (y :: ys)) := rfl
          cases j with
          | zero => rw [List.getD_cons_zero, hm]; exact le_max_left _ _
          | succ j =>
              rw [List.getD_cons_succ, hm]
              exact le_trans (ih j (by simpa using h)) (le_max_right _ _)

theorem argmaxQ_spec : ∀ (l : List ℚ), l ≠ [] →
    argmaxQ l < l.length ∧ l.getD (argmaxQ l) 0 = maxValQ l ∧
      ∀ j, j < argmaxQ l → l.getD j 0 < maxValQ l := by
  intro l
  induction l with
  | nil => intro h; exact absurd rfl h
  | cons x xs ih =>
      intro _
      cases xs with
      | nil =>
          have ha : argmaxQ [x] = 0 := rfl
          refine ⟨by simp [ha], ?_, ?_⟩
          · rw [ha, List.getD_cons_zero]
            rfl
          · intro j hj
            rw [ha] at hj
            simp at hj
      | cons y ys =>
          obtain ⟨h1, h2, h3⟩ := ih (by simp)
          have ha : argmaxQ (x :: y :: ys)
              = if x < maxValQ (y :: ys) then argmaxQ (y :: ys) + 1 else 0 := rfl
          by_cases hx : x < maxValQ (y :: ys)
          · have hm : maxValQ (x :: y :: ys) = maxValQ (y :: ys) := by
              show max x (maxValQ (y :: ys)) = maxValQ (y :: ys)
              exact max_eq_right (le_of_lt hx)
            rw [ha, if_pos hx]
            refine ⟨by simpa using Nat.succ_lt_succ h1, ?_, ?_⟩
            · rw [List.getD_cons_succ, hm, h2]
            · intro j hj
              cases j with
              | zero => rw [List.getD_cons_zero, hm]; exact hx
              | succ j =>
                  rw [List.getD_cons_succ, hm]
                  exact h3 j (Nat.lt_of_succ_lt_succ hj)
          · rw [ha, if_neg hx]
            refine ⟨by simp, ?_, ?_⟩
            · rw [List.getD_cons_zero]
              show x = max x (maxValQ (y :: ys))
              exact (max_eq_left (not_lt.1 hx)).symm
            · intro j hj
              simp at hj

theorem getD_range_map (f : ℕ → ℚ) (n j : ℕ) (h : j < n) :
    ((List.range n).map f).getD j 0 = f j := by
  have hlen : j < ((List.range n).map f).length := by simpa using h
  rw [List.getD_eq_getElem _ _ hlen]
  simp

theorem otsuEntry_pos (hist : List ℚ) (hpos : ∀ x ∈ hist, 0 ≤ x) (k : ℕ)
    (hk : k < hist.length) : 0 < otsuEntry hist k := by
  rw [otsuEntry]
  have h0 : 0 ≤ hist.getD k 0 := by
    rw [List.getD_eq_getElem _ _ hk]
    exact hpos _ (List.getElem_mem hk)
  have h1 : (0 : ℚ) < 1 / 100000 := by norm_num
  linarith

theorem otsuW1_pos (hist : List ℚ) (hpos : ∀ x ∈ hist, 0 ≤ x) (j : ℕ)
    (hj : j < hist.length) : 0 < otsuW1 hist j := by
  rw [otsuW1]
  apply Finset.sum_pos
  · intro k hk
    have hk' := Finset.mem_range.1 hk
    exact otsuEntry_pos hist hpos k (by omega)
  · exact ⟨0, Finset.mem_range.2 (by omega)⟩

theorem otsuW2_pos (hist : List ℚ) (hpos : ∀ x ∈ hist, 0 ≤ x) (j : ℕ)
    (hj : j < hist.length) : 0 < otsuW2 hist j := by
  rw [otsuW2]
  apply Finset.sum_pos
  · intro k hk
    have hk' := Finset.mem_Ico.1 hk
    exact otsuEntry_pos hist hpos k hk'.2
  · exact ⟨j, Finset.mem_Ico.2 ⟨le_refl j, hj⟩⟩

/-- C5: on every histogram with at least two bins and nonnegative entries —
including the all-zero histogram — `histogram_otsu` succeeds, the `1e-5`
bias keeps every class weight (the denominators of the class means) strictly
positive so no division by zero occurs, and the returned threshold is the
bin centre, in `[0, 1)`, of the split (the last excluded) maximising the
between-class variance `w1 * w2 * (mean1 - mean2)^2`, the first such split
in case of ties (the `np.argmax` convention). -/
theorem histogram_otsu_spec (hist : List ℚ) (hlen : 2 ≤ hist.length)
    (hpos : ∀ x ∈ hist, 0 ≤ x) :
    ∃ i, histogram_otsu hist = some (otsuBinCenter hist.length i) ∧
      i < hist.length - 1 ∧
      0 ≤ otsuBinCenter hist.length i ∧ otsuBinCenter hist.length i < 1 ∧
      (∀ j, j < hist.length - 1 → otsuVar hist j ≤ otsuVar hist i) ∧
      (∀ j, j < i → otsuVar hist j < otsuVar hist i) ∧
      (∀ j, j < hist.length → 0 < otsuW1 hist j ∧ 0 < otsuW2 hist j) := by
  set n := hist.length with hn
  set vl := (List.range (n - 1)).map (otsuVar hist) with hvl
  have hvlen : vl.length = n - 1 := by simp [hvl]
  have hvne : vl ≠ [] := by
    intro hcon
    have := congrArg List.length hcon
    rw [hvlen] at this
    simp at this
    omega
  obtain ⟨h1, h2, h3⟩ := argmaxQ_spec vl hvne
  set i := argmaxQ vl with hi
  have hilt : i < n - 1 := by rwa [hvlen] at h1
  have hgetD : ∀ j, j < n - 1 → vl.getD j 0 = otsuVar hist j := by
    intro j hj
    exact getD_range_map (otsuVar hist) (n - 1) j hj
  refine ⟨i, ?_, hilt, ?_, ?_, ?_, ?_, ?_⟩
  · rw [histogram_otsu, if_neg (by omega)]
  · rw [otsuBinCenter]
    have hd : (0 : ℚ) < (n : ℚ) - 1 := by
      have : (2 : ℚ) ≤ (n : ℚ) := by exact_mod_cast hlen
      linarith
    positivity
  · rw [otsuBinCenter, mul_one_div]
    have hd : (0 : ℚ) < (n : ℚ) - 1 := by
      have : (2 : ℚ) ≤ (n : ℚ) := by exact_mod_cast hlen
      linarith
    rw [div_lt_one hd]
    have hcast : ((i : ℚ)) < ((n - 1 : ℕ) : ℚ) := by exact_mod_cast hilt
    have hsub : ((n - 1 : ℕ) : ℚ) = (n : ℚ) - 1 := by
      have h1n : 1 ≤ n := by omega
      push_cast [Nat.cast_sub h1n]
      ring
    rwa [hsub] at hcast
  · intro j hj
    have hjv := le_maxValQ vl j (by rwa [hvlen])
    rw [hgetD j hj] at hjv
    rw [← h2, hgetD i hilt] at hjv
    exact hjv
  · intro j hj
    have hjlt : j < n - 1 := lt_trans hj hilt
    have hjv := h3 j hj
    rw [hgetD j hjlt] at hjv
    rw [← h2, hgetD i hilt] at hjv
    exact hjv
  · intro j hj
    exact ⟨otsuW1_pos hist hpos j hj, otsuW2_pos hist hpos j hj⟩

/-- Witness for C5: the all-zero two-bin histogram, handled gracefully by
the epsilon bias. -/
theorem histogram_otsu_spec_witness :
    (2 ≤ ([0, 0] : List ℚ).length) ∧ (∀ x ∈ ([0, 0] : List ℚ), 0 ≤ x) ∧
      ∃ i, histogram_otsu [0, 0] = some (otsuBinCenter ([0, 0] : List ℚ).length i) ∧
        i < ([0, 0] : List ℚ).length - 1 ∧
        0 ≤ otsuBinCenter ([0, 0] : List ℚ).length i ∧
        otsuBinCenter ([0, 0] : List ℚ).length i < 1 ∧
        (∀ j, j < ([0, 0] : List ℚ).length - 1 →
          otsuVar [0, 0] j ≤ otsuVar [0, 0] i) ∧
        (∀ j, j < i → otsuVar [0, 0] j < otsuVar [0, 0] i) ∧
        (∀ j, j < ([0, 0] : List ℚ).length →
          0 < otsuW1 [0, 0] j ∧ 0 < otsuW2 [0, 0] j) :=
  ⟨by norm_num, by norm_num,
    histogram_otsu_spec [0, 0] (by norm_num) (by norm_num)⟩

/-- C9: `absolute_eigenvaluesh` sorts each matrix's eigenvalue tuple by
ascending absolute value (the result of `sortbyabs` is a permutation of the
eigenvalues sorted by `|·| ≤ |·|`, not by raw value), and returns one array
per eigenvalue rank with the eigenvalue axis squeezed away (`nranks` arrays,
one entry per matrix).  On the 2×2 diagonal matrix `[[3,0],[0,-5]]`
(ascending eigenvalues `[-5, 3]` from the library routine) the result is
the eigenvalues ordered `[3, -5]`. -/
theorem absolute_eigenvaluesh_spec :
    (∀ l : List ℚ, (sortbyabs l).Perm l ∧ List.Sorted absLeQ (sortbyabs l)) ∧
    (∀ {M : Type} (eig : M → List ℚ) (batch : List M) (nranks : ℕ),
      (absolute_eigenvaluesh nranks eig batch).length = nranks ∧
      ∀ out ∈ absolute_eigenvaluesh nranks eig batch, out.length = batch.length) ∧
    absolute_eigenvaluesh 2 (fun mm : ℚ × ℚ => eigvalsh2_diag mm.1 mm.2) [(3, -5)]
      = [[3], [-5]] := by
  refine ⟨?_, ?_, ?_⟩
  · intro l
    exact ⟨List.perm_insertionSort absLeQ l, List.sorted_insertionSort absLeQ l⟩
  · intro M eig batch nranks
    constructor
    · simp [absolute_eigenvaluesh]
    · intro out hout
      rw [absolute_eigenvaluesh] at hout
      obtain ⟨k, -, hk⟩ := List.mem_map.1 hout
      rw [← hk]
      simp
  · decide

/-- Witness for C9: rank array `[3]` is an output row of the concrete
evaluation, of length one (one matrix in the batch). -/
theorem absolute_eigenvaluesh_spec_witness :
    ([3] ∈ absolute_eigenvaluesh 2 (fun mm : ℚ × ℚ => eigvalsh2_diag mm.1 mm.2)
        [(3, -5)]) ∧
      ([3] : List ℚ).length = ([((3 : ℚ), (-5 : ℚ))] : List (ℚ × ℚ)).length :=
  ⟨by decide,
    (absolute_eigenvaluesh_spec.2.1 (fun mm : ℚ × ℚ => eigvalsh2_diag mm.1 mm.2)
      [(3, -5)] 2).2 [3] (by decide)⟩

theorem applyWrites_not_mem {β γ : Type} [DecidableEq β] (ws : List (β × γ)) :
    ∀ (init : β → γ) (v : β), v ∉ ws.map Prod.fst → applyWrites init ws v = init v := by
  induction ws with
  | nil => intro init v _; rfl
  | cons w ws ih =>
      intro init v h
      rw [List.map_cons, List.mem_cons] at h
      push_neg at h
      have hstep : applyWrites init (w :: ws)
          = applyWrites (fun u => if u = w.1 then w.2 else init u) ws := rfl
      rw [hstep, ih _ v h.2]
      exact if_neg h.1

theorem applyWrites_get {β γ : Type} [DecidableEq β] (ws : List (β × γ)) :
    ∀ (init : β → γ) (i : ℕ) (hi : i < ws.length),
      (ws.map Prod.fst).Nodup →
      applyWrites init ws ((ws.get ⟨i, hi⟩).1) = (ws.get ⟨i, hi⟩).2 := by
  induction ws with
  | nil => intro init i hi _; simp at hi
  | cons w ws ih =>
      intro init i hi hnd
      rw [List.map_cons, List.nodup_cons] at hnd
      have hstep : applyWrites init (w :: ws)
          = applyWrites (fun u => if u = w.1 then w.2 else init u) ws := rfl
      cases i with
      | zero =>
          rw [hstep]
          have hget : ((w :: ws).get ⟨0, hi⟩) = w := rfl
          rw [hget, applyWrites_not_mem ws _ _ hnd.1]
          simp
      | succ i =>
          rw [hstep]
          have hget : ((w :: ws).get ⟨i + 1, hi⟩)
              = ws.get ⟨i, by simpa using hi⟩ := rfl
          rw [hget]
          exact ih _ i _ hnd.2

theorem range_map_getD {γ δ : Type} (l : List γ) (dflt : γ) (f : γ → δ) :
    (List.range l.length).map (fun i => f (l.getD i dflt)) = l.map f := by
  apply List.ext_getElem
  · simp
  · intro i h1 h2
    simp only [List.getElem_map, List.getElem_range]
    rw [List.getD_eq_getElem l dflt (by simpa using h2)]


theorem roundHalfEvenDiv_eq (s n : ℕ) (hn : 0 < n) :
    (roundHalfEvenDiv s n : ℤ) = roundHalfEven ((s : ℚ) / n) := by
  have hnq : (0 : ℚ) < (n : ℚ) := by exact_mod_cast hn
  have hn0 : ((n : ℚ)) ≠ 0 := ne_of_gt hnq
  have hdm : ((n : ℚ)) * ((s / n : ℕ) : ℚ) + ((s % n : ℕ) : ℚ) = (s : ℚ) := by
    exact_mod_cast Nat.div_add_mod s n
  have hsplit : (s : ℚ) / n = ((s / n : ℕ) : ℚ) + ((s % n : ℕ) : ℚ) / n := by
    rw [← hdm]
    field_simp
    ring
  have hmodlt : ((s % n : ℕ) : ℚ) / n < 1 := by
    rw [div_lt_one hnq]
    exact_mod_cast Nat.mod_lt s hn
  have hmodnn : (0 : ℚ) ≤ ((s % n : ℕ) : ℚ) / n := by positivity
  have hfloor : ⌊(s : ℚ) / n⌋ = ((s / n : ℕ) : ℤ) := by
    rw [Int.floor_eq_iff, Int.cast_natCast]
    constructor
    · rw [hsplit]
      linarith
    · rw [hsplit]
      linarith
  have hfr : (s : ℚ) / n - ((((s / n : ℕ) : ℤ)) : ℚ) = ((s % n : ℕ) : ℚ) / n := by
    rw [Int.cast_natCast, hsplit]
    ring
  have hlt : ((((s % n : ℕ) : ℚ)) / n < 1 / 2) ↔ (2 * (s % n) < n) := by
    rw [div_lt_div_iff hnq (by norm_num : (0 : ℚ) < 2)]
    norm_cast
    omega
  have hgt : ((1 : ℚ) / 2 < (((s % n : ℕ) : ℚ)) / n) ↔ (n < 2 * (s % n)) := by
    rw [div_lt_div_iff (by norm_num : (0 : ℚ) < 2) hnq]
    norm_cast
    omega
  rw [roundHalfEven, hfloor, hfr]
  rcases lt_trichotomy (2 * (s % n)) n with hc | hc | hc
  · rw [roundHalfEvenDiv, if_pos hc, if_pos (hlt.2 hc)]
  · have hnlt1 : ¬(2 * (s % n) < n) := by omega
    have hnlt2 : ¬(n < 2 * (s % n)) := by omega
    have hq1 : ¬(((s % n : ℕ) : ℚ) / n < 1 / 2) := fun hx => hnlt1 (hlt.1 hx)
    have hq2 : ¬((1 : ℚ) / 2 < ((s % n : ℕ) : ℚ) / n) := fun hx => hnlt2 (hgt.1 hx)
    rw [roundHalfEvenDiv, if_neg hnlt1, if_neg hnlt2, if_neg hq1, if_neg hq2]
    by_cases he : Even (s / n)
    · rw [if_pos he, if_pos ((Int.even_coe_nat (s / n)).2 he)]
    · rw [if_neg he, if_neg (fun hx => he ((Int.even_coe_nat (s / n)).1 hx))]
      push_cast
      ring
  · have hnlt1 : ¬(2 * (s % n) < n) := by omega
    have hq1 : ¬(((s % n : ℕ) : ℚ) / n < 1 / 2) := fun hx => hnlt1 (hlt.1 hx)
    rw [roundHalfEvenDiv, if_neg hnlt1, if_pos hc, if_neg hq1, if_pos (hgt.2 hc)]
    push_cast
    ring

theorem seedKey_eq_centroid {H W : ℕ} (mid_frame : ℕ) (S : Finset (Pix2 H W))
    (hS : S.Nonempty) :
    seedKey mid_frame S
      = (mid_frame, (roundHalfEven (centroidY S)).toNat,
          (roundHalfEven (centroidX S)).toNat) := by
  have hc : 0 < S.card := Finset.card_pos.2 hS
  have hs1 : centroidY S = ((∑ p ∈ S, p.1.val : ℕ) : ℚ) / (S.card : ℕ) := by
    rw [centroidY]
    push_cast
    ring
  have hs2 : centroidX S = ((∑ p ∈ S, p.2.val : ℕ) : ℚ) / (S.card : ℕ) := by
    rw [centroidX]
    push_cast
    ring
  have e1 : roundHalfEvenDiv (∑ p ∈ S, p.1.val) S.card
      = (roundHalfEven (centroidY S)).toNat := by
    rw [hs1, ← roundHalfEvenDiv_eq _ _ hc]
    simp
  have e2 : roundHalfEvenDiv (∑ p ∈ S, p.2.val) S.card
      = (roundHalfEven (centroidX S)).toNat := by
    rw [hs2, ← roundHalfEvenDiv_eq _ _ hc]
    simp
  rw [seedKey, e1, e2]

theorem seedWrites_keys {H W : ℕ} (comps : List (Finset (Pix2 H W)))
    (mid_frame base : ℕ) :
    (seedWrites comps mid_frame base).map Prod.fst
      = comps.map (seedKey mid_frame) := by
  rw [seedWrites, List.map_map]
  exact range_map_getD comps ∅ (seedKey mid_frame)

theorem seedWrites_spec {H W : ℕ} (comps : List (Finset (Pix2 H W)))
    (mid_frame base : ℕ) (init : ℕ × ℕ × ℕ → ℕ) (hmf : mid_frame ≠ 0)
    (hdist : (comps.map (seedKey mid_frame)).Nodup) :
    (∀ v : ℕ × ℕ × ℕ, v.1 = 0 →
      applyWrites init (seedWrites comps mid_frame base) v = init v) ∧
    (∀ i (hi : i < (comps.map (seedKey mid_frame)).length),
      applyWrites init (seedWrites comps mid_frame base)
        ((comps.map (seedKey mid_frame)).get ⟨i, hi⟩) = base + i + 1) := by
  have hkeys := seedWrites_keys comps mid_frame base
  constructor
  · intro v hv
    have hnot : v ∉ (seedWrites comps mid_frame base).map Prod.fst := by
      rw [hkeys]
      intro hmem
      obtain ⟨S, -, hS⟩ := List.mem_map.1 hmem
      have hv1 : v.1 = mid_frame := by
        rw [← hS]
        rfl
      exact hmf (by rw [← hv1, hv])
    exact applyWrites_not_mem _ init v hnot
  · intro i hi
    have hcl : i < comps.length := by simpa using hi
    have hwlen : (seedWrites comps mid_frame base).length = comps.length := by
      rw [seedWrites]
      simp
    have hi' : i < (seedWrites comps mid_frame base).length := by omega
    have hw : (seedWrites comps mid_frame base).get ⟨i, hi'⟩
        = (seedKey mid_frame (comps.getD i ∅), base + i + 1) := by
      show ((List.range comps.length).map
          (fun j => (seedKey mid_frame (comps.getD j ∅), base + j + 1))).get
            ⟨i, hi'⟩ = _
      rw [List.get_eq_getElem]
      simp
    have hkget : (comps.map (seedKey mid_frame)).get ⟨i, hi⟩
        = seedKey mid_frame (comps.getD i ∅) := by
      rw [List.get_eq_getElem, List.getElem_map,
        List.getD_eq_getElem comps ∅ hcl]
    have happ := applyWrites_get (seedWrites comps mid_frame base) init i hi'
      (by rw [hkeys]; exact hdist)
    rw [hw] at happ
    rw [hkget]
    exact happ

/-- Counterexample to C6 as stated: on the all-foreground 1×1 mask with
`stack_shape = (1,1,1)`, `mid_frame = 0`, `hole_min = 1` and `bg_seed`
true, the single surviving component's seed (id 2) lands in the `z = 0`
slice and overwrites the background seed there, so the `z = 0` slice does
not carry seed id 1 everywhere. -/
theorem get_3dseed_counterexample :
    get_3dseed_from_mid_frame (fun _ : Pix2 1 1 => (1 : Int)) (1, 1, 1) 0 1 true
        (0, 0, 0) = 2 ∧
      get_3dseed_from_mid_frame (fun _ : Pix2 1 1 => (1 : Int)) (1, 1, 1) 0 1 true
        (0, 0, 0) ≠ 1 := by
  constructor
  · decide
  · decide

/-- C6 (amended): `get_3dseed_from_mid_frame` with `bg_seed = true` carries
seed id 1 on the whole `z = 0` slice of the stack shape, and the `i`-th
surviving component (in label order) receives the strictly increasing
unique id `i + 2` at its rounded centroid in the `mid_frame` slice —
provided `mid_frame ≠ 0` (else a component seed overwrites part of the
`z = 0` background slice, see the counterexample) and the rounded centroids
of the surviving components are pairwise distinct (else a later component
overwrites an earlier one's only seed voxel). -/
theorem get_3dseed_spec {H W : ℕ} (bw : Pix2 H W → Int) (sd sh sw : ℕ)
    (mid_frame hole_min : ℕ) (hmf : mid_frame ≠ 0)
    (hdist : (seedKeysOf bw mid_frame hole_min).Nodup) :
    (∀ y x, y < sh → x < sw →
      get_3dseed_from_mid_frame bw (sd, sh, sw) mid_frame hole_min true
        (0, y, x) = 1) ∧
    (∀ i (hi : i < (seedKeysOf bw mid_frame hole_min).length),
      get_3dseed_from_mid_frame bw (sd, sh, sw) mid_frame hole_min true
        ((seedKeysOf bw mid_frame hole_min).get ⟨i, hi⟩) = i + 2) := by
  have hspec := seedWrites_spec
    (compsList (remove_small_objects (fun p => decide (bw p > 0)) hole_min))
    mid_frame 1
    (fun v : ℕ × ℕ × ℕ =>
      if true && decide (v.1 = 0) && decide (v.2.1 < sh) && decide (v.2.2 < sw)
      then 1 else 0)
    hmf hdist
  constructor
  · intro y x hy hx
    have h0 := hspec.1 (0, y, x) rfl
    have hunf : get_3dseed_from_mid_frame bw (sd, sh, sw) mid_frame hole_min true
        (0, y, x)
        = applyWrites
            (fun v : ℕ × ℕ × ℕ =>
              if true && decide (v.1 = 0) && decide (v.2.1 < sh) &&
                decide (v.2.2 < sw) then 1 else 0)
            (seedWrites
              (compsList (remove_small_objects (fun p => decide (bw p > 0)) hole_min))
              mid_frame 1) (0, y, x) := rfl
    rw [hunf, h0]
    simp [hy, hx]
  · intro i hi
    have h2 := hspec.2 i hi
    have hunf : get_3dseed_from_mid_frame bw (sd, sh, sw) mid_frame hole_min true
        ((seedKeysOf bw mid_frame hole_min).get ⟨i, hi⟩)
        = applyWrites
            (fun v : ℕ × ℕ × ℕ =>
              if true && decide (v.1 = 0) && decide (v.2.1 < sh) &&
                decide (v.2.2 < sw) then 1 else 0)
            (seedWrites
              (compsList (remove_small_objects (fun p => decide (bw p > 0)) hole_min))
              mid_frame 1)
            ((seedKeysOf bw mid_frame hole_min).get ⟨i, hi⟩) := rfl
    rw [hunf]
    have h2' : applyWrites
        (fun v : ℕ × ℕ × ℕ =>
          if true && decide (v.1 = 0) && decide (v.2.1 < sh) &&
            decide (v.2.2 < sw) then 1 else 0)
        (seedWrites
          (compsList (remove_small_objects (fun p => decide (bw p > 0)) hole_min))
          mid_frame 1)
        ((seedKeysOf bw mid_frame hole_min).get ⟨i, hi⟩) = 1 + i + 1 := h2
    rw [h2']
    omega

/-- Witness for C6 (amended) at a concrete input: one 1×1 surviving
component, a seed volume of shape `(2,1,1)`, components seeded in slice
`z = 1`, background slice `z = 0` all 1. -/
theorem get_3dseed_spec_witness :
    ((1 : ℕ) ≠ 0) ∧
    (seedKeysOf (fun _ : Pix2 1 1 => (1 : Int)) 1 1).Nodup ∧
    get_3dseed_from_mid_frame (fun _ : Pix2 1 1 => (1 : Int)) (2, 1, 1) 1 1 true
        (0, 0, 0) = 1 :=
  ⟨by decide, by decide,
    (get_3dseed_spec (fun _ : Pix2 1 1 => (1 : Int)) 2 1 1 1 1 (by decide)
      (by decide)).1 0 0 (by decide) (by decide)⟩
